import Mathlib

/-!
Verification of the Tasks.md auto-scheduling engine against its design
specification.  The repository ships the frontend trigger button
(`src/frontend/src/components/header.jsx`) while the engine itself (the
`autoschedule` Python package referenced by the Dockerfile) is not part of
the source tree; the engine components below are therefore modelled from
the specification text, and the frontend handler is embedded from the
JSX source.  Time instants are natural numbers (e.g. minutes since the
horizon epoch); all time ranges are half-open intervals `[start, stop)`.
-/

namespace Autoschedule

/-- A half-open time range `[start, stop)`.  `stop` stands for the spec's
`end`, which is a reserved word in Lean. -/
structure Interval where
  start : Nat
  stop : Nat
deriving Repr, DecidableEq

/-- The instant `t` lies inside the interval `i`. -/
def covered (t : Nat) (i : Interval) : Prop :=
  i.start ≤ t ∧ t < i.stop

instance (t : Nat) (i : Interval) : Decidable (covered t i) :=
  inferInstanceAs (Decidable (_ ∧ _))

/-- Two intervals overlap when some instant lies in both. -/
def overlaps (a b : Interval) : Prop :=
  ∃ t, covered t a ∧ covered t b

/-- Pointwise containment of intervals. -/
def iSub (a b : Interval) : Prop :=
  ∀ t, covered t a → covered t b

/-- A list of intervals is pairwise non-overlapping. -/
def disjointList (l : List Interval) : Prop :=
  l.Pairwise (fun a b => ¬ overlaps a b)

/-- Modelled from the spec: interval subtraction (§4.1).  Removing one busy
interval `b` from a window `w` keeps the sub-window before `b` and the
sub-window after `b`, discarding zero-length results. -/
def subOne (b w : Interval) : List Interval :=
  let left : Interval := ⟨w.start, min w.stop b.start⟩
  let right : Interval := ⟨max w.start b.stop, w.stop⟩
  (if left.start < left.stop then [left] else []) ++
    (if right.start < right.stop then [right] else [])

/-- Modelled from the spec: subtract every busy interval in turn from a
current list of free segments (§4.1). -/
def subAllSegs : List Interval → List Interval → List Interval
  | [], segs => segs
  | b :: rest, segs => subAllSegs rest (segs.flatMap (subOne b))

/-- Modelled from the spec: all free sub-windows of one working window
after removing every busy interval. -/
def subtractBusy (busy : List Interval) (w : Interval) : List Interval :=
  subAllSegs busy [w]

/-- Chronological order on intervals: by start time. -/
def startLE (a b : Interval) : Prop :=
  a.start ≤ b.start

instance : DecidableRel startLE :=
  fun a b => inferInstanceAs (Decidable (a.start ≤ b.start))

instance : IsTotal Interval startLE :=
  ⟨fun a b => Nat.le_total a.start b.start⟩

instance : IsTrans Interval startLE :=
  ⟨fun _ _ _ => Nat.le_trans⟩

/-- Modelled from the spec: the Constraint Model Builder's free-interval
computation (§4.1, the `autoschedule` package is absent from the source
tree).  From the raw working-time windows within the horizon, subtract
every busy interval, discard zero-length results, and sort the remaining
free intervals by start time. -/
def buildFreeIntervals (windows busy : List Interval) : List Interval :=
  List.insertionSort startLE
    ((windows.flatMap (subtractBusy busy)).filter (fun i => i.start < i.stop))

theorem not_overlaps_iff (a b : Interval) :
    ¬ overlaps a b ↔
      a.stop ≤ b.start ∨ b.stop ≤ a.start ∨ a.stop ≤ a.start ∨ b.stop ≤ b.start := by
  unfold overlaps covered
  constructor
  · intro h
    by_contra hc
    push_neg at hc
    exact h ⟨max a.start b.start, ⟨by omega, by omega⟩, ⟨by omega, by omega⟩⟩
  · rintro h ⟨t, ⟨h1, h2⟩, ⟨h3, h4⟩⟩
    omega

theorem not_overlaps_symm {a b : Interval} (h : ¬ overlaps a b) : ¬ overlaps b a := by
  rw [not_overlaps_iff] at h ⊢
  omega

theorem covered_subOne (b w : Interval) (t : Nat) :
    (∃ j ∈ subOne b w, covered t j) ↔ covered t w ∧ ¬ covered t b := by
  unfold subOne covered
  simp only [List.mem_append, List.mem_ite_nil_right, List.mem_singleton]
  constructor
  · rintro ⟨j, hj, hcov⟩
    rcases hj with ⟨_, rfl⟩ | ⟨_, rfl⟩ <;> simp only at hcov <;> omega
  · rintro ⟨⟨h1, h2⟩, hb⟩
    by_cases hc : t < b.start
    · exact ⟨_, Or.inl ⟨by omega, rfl⟩, by simp; omega⟩
    · exact ⟨_, Or.inr ⟨by omega, rfl⟩, by simp; omega⟩

theorem subOne_iSub {b w j : Interval} (hj : j ∈ subOne b w) : iSub j w := by
  intro t ht
  unfold subOne at hj
  simp only [List.mem_append, List.mem_ite_nil_right, List.mem_singleton] at hj
  unfold covered at ht ⊢
  rcases hj with ⟨_, rfl⟩ | ⟨_, rfl⟩ <;> simp only at ht <;> omega

theorem subOne_disjoint {b : Interval} (hb : b.start ≤ b.stop) (w : Interval) :
    (subOne b w).Pairwise (fun a c => ¬ overlaps a c) := by
  unfold subOne
  by_cases h1 : w.start < min w.stop b.start <;>
    by_cases h2 : max w.start b.stop < w.stop <;>
      simp [h1, h2, List.pairwise_append, not_overlaps_iff] <;> omega

theorem iSub_not_overlaps {a f z : Interval} (ha : iSub a f) (h : ¬ overlaps f z) :
    ¬ overlaps a z := by
  rintro ⟨t, h1, h2⟩
  exact h ⟨t, ha t h1, h2⟩

theorem flatMap_subOne_disjoint {b : Interval} (hb : b.start ≤ b.stop)
    {segs : List Interval} (hs : disjointList segs) :
    disjointList (segs.flatMap (subOne b)) := by
  unfold disjointList
  rw [List.pairwise_flatMap]
  refine ⟨fun a _ => subOne_disjoint hb a, ?_⟩
  refine hs.imp_of_mem ?_
  intro s s' _ _ hdisj x hx y hy
  exact iSub_not_overlaps (subOne_iSub hx)
    (not_overlaps_symm (iSub_not_overlaps (subOne_iSub hy) (not_overlaps_symm hdisj)))

theorem subAllSegs_disjoint {busy : List Interval}
    (hb : ∀ b ∈ busy, b.start ≤ b.stop) :
    ∀ {segs : List Interval}, disjointList segs → disjointList (subAllSegs busy segs) := by
  induction busy with
  | nil => intro segs hs; exact hs
  | cons b rest ih =>
    intro segs hs
    exact ih (fun x hx => hb x (List.mem_cons_of_mem b hx))
      (flatMap_subOne_disjoint (hb b (List.mem_cons_self _ _)) hs)

theorem subAllSegs_iSub {busy : List Interval} {w : Interval} :
    ∀ {segs : List Interval}, (∀ i ∈ segs, iSub i w) →
      ∀ i ∈ subAllSegs busy segs, iSub i w := by
  induction busy with
  | nil => intro segs hs; exact hs
  | cons b rest ih =>
    intro segs hs
    refine ih ?_
    intro i hi
    obtain ⟨s, hsmem, hsub⟩ := List.mem_flatMap.mp hi
    exact fun t ht => hs s hsmem t (subOne_iSub hsub t ht)

theorem covered_subAllSegs {busy : List Interval} (t : Nat) :
    ∀ {segs : List Interval},
      ((∃ i ∈ subAllSegs busy segs, covered t i) ↔
        (∃ i ∈ segs, covered t i) ∧ ∀ b ∈ busy, ¬ covered t b) := by
  induction busy with
  | nil => intro segs; simp [subAllSegs]
  | cons b rest ih =>
    intro segs
    rw [subAllSegs, ih]
    constructor
    · rintro ⟨⟨i, hi, hcov⟩, hrest⟩
      obtain ⟨s, hsmem, hsub⟩ := List.mem_flatMap.mp hi
      have := (covered_subOne b s t).mp ⟨i, hsub, hcov⟩
      exact ⟨⟨s, hsmem, this.1⟩, by
        intro b' hb'
        rcases List.mem_cons.mp hb' with rfl | h
        · exact this.2
        · exact hrest b' h⟩
    · rintro ⟨⟨s, hsmem, hcov⟩, hall⟩
      have hnb : ¬ covered t b := hall b (List.mem_cons_self _ _)
      obtain ⟨j, hj, hjcov⟩ := (covered_subOne b s t).mpr ⟨hcov, hnb⟩
      exact ⟨⟨j, List.mem_flatMap.mpr ⟨s, hsmem, hj⟩, hjcov⟩,
        fun b' hb' => hall b' (List.mem_cons_of_mem b hb')⟩

theorem subtractBusy_disjoint {busy : List Interval}
    (hb : ∀ b ∈ busy, b.start ≤ b.stop) (w : Interval) :
    disjointList (subtractBusy busy w) :=
  subAllSegs_disjoint hb (List.pairwise_singleton _ w)

theorem subtractBusy_iSub {busy : List Interval} {w : Interval} :
    ∀ i ∈ subtractBusy busy w, iSub i w := by
  refine subAllSegs_iSub ?_
  intro i hi
  rw [List.mem_singleton] at hi
  exact hi ▸ fun t ht => ht

theorem covered_subtractBusy {busy : List Interval} {w : Interval} (t : Nat) :
    (∃ i ∈ subtractBusy busy w, covered t i) ↔
      covered t w ∧ ∀ b ∈ busy, ¬ covered t b := by
  unfold subtractBusy
  rw [covered_subAllSegs]
  simp

theorem mem_buildFreeIntervals_iff {windows busy : List Interval} {i : Interval} :
    i ∈ buildFreeIntervals windows busy ↔
      (∃ w ∈ windows, i ∈ subtractBusy busy w) ∧ i.start < i.stop := by
  unfold buildFreeIntervals
  rw [(List.perm_insertionSort startLE _).mem_iff, List.mem_filter, List.mem_flatMap]
  simp

/-- C9: every free-interval set produced by the Constraint Model Builder
consists of pairwise disjoint intervals sorted by start time, contains no
zero-length interval, and is gap-free within the horizon: an instant is
covered by a free interval exactly when it lies in a working window and in
no busy interval. -/
theorem freeIntervals_wellformed (windows busy : List Interval)
    (hw : List.Pairwise (fun a b => ¬ overlaps a b) windows)
    (hb : ∀ b ∈ busy, b.start ≤ b.stop) :
    disjointList (buildFreeIntervals windows busy) ∧
    (buildFreeIntervals windows busy).Sorted startLE ∧
    (∀ i ∈ buildFreeIntervals windows busy, i.start < i.stop) ∧
    (∀ t, (∃ i ∈ buildFreeIntervals windows busy, covered t i) ↔
      (∃ w ∈ windows, covered t w) ∧ ∀ b ∈ busy, ¬ covered t b) := by
  refine ⟨?_, List.sorted_insertionSort startLE _, ?_, ?_⟩
  · have hraw : disjointList (windows.flatMap (subtractBusy busy)) := by
      unfold disjointList
      rw [List.pairwise_flatMap]
      refine ⟨fun w _ => subtractBusy_disjoint hb w, ?_⟩
      refine hw.imp_of_mem ?_
      intro w w' _ _ hdisj x hx y hy
      exact iSub_not_overlaps (subtractBusy_iSub x hx)
        (not_overlaps_symm (iSub_not_overlaps (subtractBusy_iSub y hy)
          (not_overlaps_symm hdisj)))
    unfold disjointList buildFreeIntervals
    rw [(List.perm_insertionSort startLE _).pairwise_iff
      (fun h => not_overlaps_symm h)]
    exact hraw.filter _
  · intro i hi
    exact (mem_buildFreeIntervals_iff.mp hi).2
  · intro t
    constructor
    · rintro ⟨i, hi, hcov⟩
      obtain ⟨⟨w, hwmem, hsub⟩, _⟩ := mem_buildFreeIntervals_iff.mp hi
      have := (covered_subtractBusy t).mp ⟨i, hsub, hcov⟩
      exact ⟨⟨w, hwmem, this.1⟩, this.2⟩
    · rintro ⟨⟨w, hwmem, hcov⟩, hnb⟩
      obtain ⟨i, hi, hicov⟩ := (covered_subtractBusy t).mpr ⟨hcov, hnb⟩
      refine ⟨i, mem_buildFreeIntervals_iff.mpr ⟨⟨w, hwmem, hi⟩, ?_⟩, hicov⟩
      unfold covered at hicov
      omega

/-- C9 witness: a one-day horizon with a 09:00–17:00 window (minutes
540–1020) and two busy blocks. -/
theorem freeIntervals_wellformed_witness :
    disjointList (buildFreeIntervals [⟨540, 1020⟩] [⟨600, 660⟩, ⟨900, 960⟩]) ∧
    (buildFreeIntervals [⟨540, 1020⟩] [⟨600, 660⟩, ⟨900, 960⟩]).Sorted startLE ∧
    (∀ i ∈ buildFreeIntervals [⟨540, 1020⟩] [⟨600, 660⟩, ⟨900, 960⟩],
      i.start < i.stop) ∧
    (∀ t, (∃ i ∈ buildFreeIntervals [⟨540, 1020⟩] [⟨600, 660⟩, ⟨900, 960⟩],
        covered t i) ↔
      (∃ w ∈ [(⟨540, 1020⟩ : Interval)], covered t w) ∧
        ∀ b ∈ [(⟨600, 660⟩ : Interval), ⟨900, 960⟩], ¬ covered t b) :=
  freeIntervals_wellformed [⟨540, 1020⟩] [⟨600, 660⟩, ⟨900, 960⟩]
    (by simp) (by decide)

/-- Modelled from the spec: a normalized task / demand (§3). -/
structure Task where
  id : Nat
  title : String
  duration : Nat
  deadline : Option Nat
  priority : Nat
  tags : List String
deriving Repr, DecidableEq

/-- Modelled from the spec: the Scheduler's demand order (§4.2) as a boolean
comparison — deadline presence before absence, earlier deadline first,
higher priority weight first, then task id. -/
def demandLEb (a b : Task) : Bool :=
  match a.deadline, b.deadline with
  | some da, some db =>
    if da < db then true
    else if db < da then false
    else if b.priority < a.priority then true
    else if a.priority < b.priority then false
    else decide (a.id ≤ b.id)
  | some _, none => true
  | none, some _ => false
  | none, none =>
    if b.priority < a.priority then true
    else if a.priority < b.priority then false
    else decide (a.id ≤ b.id)

/-- The demand-processing order of the Scheduler, as a relation. -/
def demandLE (a b : Task) : Prop :=
  demandLEb a b = true

instance : DecidableRel demandLE :=
  fun a b => inferInstanceAs (Decidable (_ = true))

instance : IsTotal Task demandLE := by
  constructor
  intro a b
  unfold demandLE demandLEb
  rcases a.deadline with _ | da <;> rcases b.deadline with _ | db <;>
    simp <;> omega

instance : IsTrans Task demandLE := by
  constructor
  intro a b c
  unfold demandLE demandLEb
  rcases a.deadline with _ | da <;> rcases b.deadline with _ | db <;>
    rcases c.deadline with _ | dc <;> simp <;> omega

/-- Modelled from the spec: order demands for processing (§4.2 step 1). -/
def sortDemands (l : List Task) : List Task :=
  List.insertionSort demandLE l

/-- Modelled from the spec: a placement, with the `scheduled-past-deadline`
annotation (§3, §4.2 step 4). -/
structure Placement where
  taskId : Nat
  start : Nat
  stop : Nat
  pastDeadline : Bool
deriving Repr, DecidableEq

/-- Modelled from the spec: an unscheduled entry `{task id, reason}`, with
the underlying error message for write failures (§4.3, §6). -/
structure Unscheduled where
  taskId : Nat
  reason : String
  message : Option String
deriving Repr, DecidableEq

/-- The `scheduled-past-deadline` annotation on a placement ending at
`stop` (§4.2 step 4). -/
def pastDeadlineFlag (t : Task) (stop : Nat) : Bool :=
  match t.deadline with
  | some d => decide (d < stop)
  | none => false

/-- Modelled from the spec: scan free intervals chronologically, take the
first with remaining capacity at least the task's duration, carve the
placement from its start and shrink the interval, removing it when fully
consumed (§4.2 steps 2–3). -/
def placeIn : List Interval → Task → Option (Placement × List Interval)
  | [], _ => none
  | f :: rest, t =>
    if t.duration ≤ f.stop - f.start then
      some (⟨t.id, f.start, f.start + t.duration,
              pastDeadlineFlag t (f.start + t.duration)⟩,
        if f.start + t.duration < f.stop then
          ⟨f.start + t.duration, f.stop⟩ :: rest
        else rest)
    else
      match placeIn rest t with
      | some (p, rest') => some (p, f :: rest')
      | none => none

/-- The Scheduler's running state: remaining free intervals, placements so
far, unscheduled entries so far. -/
structure SchedState where
  free : List Interval
  placements : List Placement
  unscheduled : List Unscheduled
deriving Repr, DecidableEq

/-- Modelled from the spec: handle one demand — place it or mark it
`no-capacity` (§4.2 steps 2–4). -/
def schedStep (s : SchedState) (t : Task) : SchedState :=
  match placeIn s.free t with
  | some (p, free') => ⟨free', s.placements ++ [p], s.unscheduled⟩
  | none => ⟨s.free, s.placements, s.unscheduled ++ [⟨t.id, "no-capacity", none⟩]⟩

/-- Modelled from the spec: the Scheduler — order the demands, then one
greedy single pass (§4.2). -/
def runScheduler (free : List Interval) (demands : List Task) : SchedState :=
  (sortDemands demands).foldl schedStep ⟨free, [], []⟩

/-- The time interval occupied by a placement. -/
def Placement.toI (p : Placement) : Interval :=
  ⟨p.start, p.stop⟩

theorem placeIn_spec {free : List Interval} {t : Task} {p : Placement}
    {free' : List Interval} (h : placeIn free t = some (p, free')) :
    ∃ l f r, free = l ++ f :: r ∧
      (∀ x ∈ l, x.stop - x.start < t.duration) ∧
      t.duration ≤ f.stop - f.start ∧
      p = ⟨t.id, f.start, f.start + t.duration,
            pastDeadlineFlag t (f.start + t.duration)⟩ ∧
      free' = l ++ (if f.start + t.duration < f.stop then
        (⟨f.start + t.duration, f.stop⟩ : Interval) :: r else r) := by
  induction free generalizing free' with
  | nil => simp [placeIn] at h
  | cons f rest ih =>
    rw [placeIn] at h
    by_cases hfit : t.duration ≤ f.stop - f.start
    · rw [if_pos hfit] at h
      obtain ⟨hp, hf⟩ := Prod.mk.injEq .. ▸ Option.some.inj h
      exact ⟨[], f, rest, rfl, by simp, hfit, hp.symm, by simp [hf]⟩
    · rw [if_neg hfit] at h
      cases hrec : placeIn rest t with
      | none => rw [hrec] at h; exact absurd h (by simp)
      | some pr =>
        rw [hrec] at h
        obtain ⟨hp, hf⟩ := Prod.mk.injEq .. ▸ Option.some.inj h
        obtain ⟨l, f0, r, hsplit, hsmall, hcap, hpl, hrest⟩ :=
          ih (hp ▸ hrec : placeIn rest t = some (p, pr.2))
        refine ⟨f :: l, f0, r, by rw [hsplit]; rfl, ?_, hcap, hpl, ?_⟩
        · intro x hx
          rcases List.mem_cons.mp hx with rfl | hx
          · omega
          · exact hsmall x hx
        · rw [← hf, hrest]
          simp

theorem iSub_trans {a b c : Interval} (h1 : iSub a b) (h2 : iSub b c) : iSub a c :=
  fun t ht => h2 t (h1 t ht)

theorem pairwise_replace {R : Interval → Interval → Prop}
    (hsym : ∀ {x y : Interval}, R x y → R y x)
    {C D E : List Interval} {f : Interval}
    (h : List.Pairwise R (C ++ f :: D))
    (hE : List.Pairwise R E)
    (hEf : ∀ x ∈ E, ∀ z, R f z → R x z) :
    List.Pairwise R (C ++ (E ++ D)) := by
  rw [List.pairwise_append] at h ⊢
  obtain ⟨hC, hfD, hcross⟩ := h
  rw [List.pairwise_cons] at hfD
  obtain ⟨hfd, hD⟩ := hfD
  refine ⟨hC, ?_, ?_⟩
  · rw [List.pairwise_append]
    exact ⟨hE, hD, fun x hx d hd => hEf x hx d (hfd d hd)⟩
  · intro c hc y hy
    rcases List.mem_append.mp hy with hy | hy
    · exact hsym (hEf y hy c (hsym (hcross c hc f (List.mem_cons_self _ _))))
    · exact hcross c hc y (List.mem_cons_of_mem f hy)

/-- The single-run soundness invariant: placements made so far together
with the remaining free intervals are pairwise non-overlapping, and each
lies within a single free interval of the initial set. -/
def schedInv (free₀ : List Interval) (s : SchedState) : Prop :=
  disjointList (s.placements.map Placement.toI ++ s.free) ∧
  ∀ i ∈ s.placements.map Placement.toI ++ s.free, ∃ f ∈ free₀, iSub i f

theorem schedStep_inv {free₀ : List Interval} {s : SchedState} {t : Task}
    (h : schedInv free₀ s) : schedInv free₀ (schedStep s t) := by
  cases hp : placeIn s.free t with
  | none =>
    unfold schedStep
    rw [hp]
    exact h
  | some pr =>
    obtain ⟨p, free'⟩ := pr
    obtain ⟨hdisj, hsub⟩ := h
    obtain ⟨l, f, r, hsplit, _, hcap, hpl, hfree'⟩ := placeIn_spec hp
    have hgoal : schedInv free₀ ⟨free', s.placements ++ [p], s.unscheduled⟩ := by
      have hpI : iSub p.toI f := by
        intro u hu
        rw [hpl] at hu
        simp only [Placement.toI, covered] at hu ⊢
        omega
      set X : List Interval := (if f.start + t.duration < f.stop then
        [(⟨f.start + t.duration, f.stop⟩ : Interval)] else []) with hX
      have hfree'X : free' = l ++ (X ++ r) := by
        rw [hfree', hX]
        split <;> simp
      have hXf : ∀ x ∈ X, iSub x f := by
        intro x hx
        rw [hX] at hx
        split at hx
        · rw [List.mem_singleton] at hx
          subst hx
          intro u hu
          simp only [covered] at hu ⊢
          omega
        · exact absurd hx (List.not_mem_nil x)
      have hEmem : ∀ x ∈ p.toI :: X, iSub x f := by
        intro x hx
        rcases List.mem_cons.mp hx with rfl | hx
        · exact hpI
        · exact hXf x hx
      have hpX : List.Pairwise (fun a b => ¬ overlaps a b) (p.toI :: X) := by
        rw [List.pairwise_cons]
        refine ⟨?_, ?_⟩
        · intro x hx
          rw [hX] at hx
          split at hx
          · rw [List.mem_singleton] at hx
            subst hx
            rw [not_overlaps_iff, hpl]
            simp only [Placement.toI]
            omega
          · exact absurd hx (List.not_mem_nil x)
        · rw [hX]
          split
          · exact List.pairwise_singleton _ _
          · exact List.Pairwise.nil
      have hcomb : disjointList ((s.placements.map Placement.toI ++ l) ++
          ((p.toI :: X) ++ r)) := by
        refine @pairwise_replace _ (fun hxy => not_overlaps_symm hxy) _ _ _ f ?_ hpX ?_
        · rw [List.append_assoc, ← hsplit]
          exact hdisj
        · intro x hx z hz
          exact iSub_not_overlaps (hEmem x hx) hz
      constructor
      · have hperm : ((s.placements ++ [p]).map Placement.toI ++ free').Perm
            ((s.placements.map Placement.toI ++ l) ++ ((p.toI :: X) ++ r)) := by
          rw [List.map_append, hfree'X]
          simp only [List.map_cons, List.map_nil]
          have h1 : (s.placements.map Placement.toI ++ [p.toI]) ++ (l ++ (X ++ r))
              = s.placements.map Placement.toI ++
                (([p.toI] ++ l) ++ (X ++ r)) := by
            simp [List.append_assoc]
          have h2 : (s.placements.map Placement.toI ++ l) ++ ((p.toI :: X) ++ r)
              = s.placements.map Placement.toI ++
                ((l ++ [p.toI]) ++ (X ++ r)) := by
            simp [List.append_assoc]
          rw [h1, h2]
          exact List.Perm.append_left _
            (List.Perm.append_right _ List.perm_append_comm)
        exact (hperm.pairwise_iff (fun hxy => not_overlaps_symm hxy)).mpr hcomb
      · intro i hi
        have hfmem : ∃ f0 ∈ free₀, iSub f f0 := by
          refine hsub f ?_
          rw [hsplit]
          exact List.mem_append_right _
            (List.mem_append_right _ (List.mem_cons_self _ _))
        simp only [List.map_append, List.map_cons, List.map_nil] at hi
        rcases List.mem_append.mp hi with hi | hi
        · rcases List.mem_append.mp hi with hi | hi
          · exact hsub i (List.mem_append_left _ hi)
          · rw [List.mem_singleton] at hi
            subst hi
            obtain ⟨f0, hf0, hff0⟩ := hfmem
            exact ⟨f0, hf0, iSub_trans hpI hff0⟩
        · rw [hfree'X] at hi
          rcases List.mem_append.mp hi with hi | hi
          · refine hsub i ?_
            rw [hsplit]
            exact List.mem_append_right _ (List.mem_append_left _ hi)
          · rcases List.mem_append.mp hi with hi | hi
            · obtain ⟨f0, hf0, hff0⟩ := hfmem
              exact ⟨f0, hf0, iSub_trans (hXf i hi) hff0⟩
            · refine hsub i ?_
              rw [hsplit]
              exact List.mem_append_right _
                (List.mem_append_right _ (List.mem_cons_of_mem f hi))
    unfold schedStep
    rw [hp]
    exact hgoal

theorem foldl_schedInv {free₀ : List Interval} :
    ∀ (l : List Task) (s : SchedState), schedInv free₀ s →
      schedInv free₀ (l.foldl schedStep s) := by
  intro l
  induction l with
  | nil => intro s h; exact h
  | cons t rest ih => intro s h; exact ih (schedStep s t) (schedStep_inv h)

/-- C1: in every run, the produced placements are pairwise non-overlapping
and each placement's `[start, stop)` lies within a single free interval of
the set the run started from. -/
theorem scheduler_placements_sound (free : List Interval) (demands : List Task)
    (hfree : disjointList free) :
    List.Pairwise (fun a b => ¬ overlaps a b)
      ((runScheduler free demands).placements.map Placement.toI) ∧
    ∀ p ∈ (runScheduler free demands).placements,
      ∃ f ∈ free, iSub p.toI f := by
  have hinit : schedInv free ⟨free, [], []⟩ := by
    refine ⟨by simpa [disjointList] using hfree, ?_⟩
    intro i hi
    simp only [List.map_nil, List.nil_append] at hi
    exact ⟨i, hi, fun t ht => ht⟩
  have hfinal := foldl_schedInv (sortDemands demands) _ hinit
  obtain ⟨hdisj, hsub⟩ := hfinal
  unfold runScheduler
  constructor
  · exact (List.pairwise_append.mp hdisj).1
  · intro p hp
    exact hsub p.toI (List.mem_append_left _ (List.mem_map_of_mem _ hp))

/-- C1 witness: two tasks carved from one 09:00–17:00 interval. -/
theorem scheduler_placements_sound_witness :
    List.Pairwise (fun a b => ¬ overlaps a b)
      ((runScheduler [⟨540, 1020⟩]
        [⟨1, "A", 180, some 1440, 2, []⟩, ⟨2, "B", 360, none, 1, []⟩]).placements.map
          Placement.toI) ∧
    ∀ p ∈ (runScheduler [⟨540, 1020⟩]
        [⟨1, "A", 180, some 1440, 2, []⟩, ⟨2, "B", 360, none, 1, []⟩]).placements,
      ∃ f ∈ [(⟨540, 1020⟩ : Interval)], iSub p.toI f :=
  scheduler_placements_sound [⟨540, 1020⟩]
    [⟨1, "A", 180, some 1440, 2, []⟩, ⟨2, "B", 360, none, 1, []⟩]
    (List.pairwise_singleton _ _)

theorem demandLEb_of_deadline_lt {A B : Task} {da db : Nat}
    (hA : A.deadline = some da) (hB : B.deadline = some db) (h : da < db) :
    demandLEb A B = true ∧ demandLEb B A = false := by
  have h' : ¬ db < da := by omega
  constructor
  · unfold demandLEb
    rw [hA, hB]
    simp [h]
  · unfold demandLEb
    rw [hB, hA]
    simp [h, h']

theorem sortDemands_pair {A B : Task}
    (hAB : demandLEb A B = true) (hBA : demandLEb B A = false) :
    sortDemands [A, B] = [A, B] ∧ sortDemands [B, A] = [A, B] := by
  constructor
  · unfold sortDemands
    simp [List.insertionSort, List.orderedInsert, demandLE, hAB]
  · unfold sortDemands
    simp [List.insertionSort, List.orderedInsert, demandLE, hBA]

theorem sched_pair_tight {A B : Task} {f : Interval}
    (hcapA : A.duration ≤ f.stop - f.start)
    (htight : f.stop - f.start < A.duration + B.duration)
    (hpos : 0 < B.duration) :
    [A, B].foldl schedStep ⟨[f], [], []⟩ =
      ⟨if f.start + A.duration < f.stop then
          [(⟨f.start + A.duration, f.stop⟩ : Interval)] else [],
        [⟨A.id, f.start, f.start + A.duration,
          pastDeadlineFlag A (f.start + A.duration)⟩],
        [⟨B.id, "no-capacity", none⟩]⟩ := by
  have h1 : placeIn [f] A =
      some (⟨A.id, f.start, f.start + A.duration,
          pastDeadlineFlag A (f.start + A.duration)⟩,
        if f.start + A.duration < f.stop then
          [(⟨f.start + A.duration, f.stop⟩ : Interval)] else []) := by
    unfold placeIn
    rw [if_pos hcapA]
  by_cases hleft : f.start + A.duration < f.stop
  · have h2 : placeIn [(⟨f.start + A.duration, f.stop⟩ : Interval)] B = none := by
      have hb : ¬ (B.duration ≤ f.stop - (f.start + A.duration)) := by omega
      simp [placeIn, hb]
    simp only [List.foldl]
    unfold schedStep
    rw [h1]
    simp only [if_pos hleft]
    rw [h2]
    simp
  · have h2 : placeIn ([] : List Interval) B = none := by
      simp [placeIn]
    simp only [List.foldl]
    unfold schedStep
    rw [h1]
    simp only [if_neg hleft]
    rw [h2]
    simp

/-- C2: the Scheduler processes demands in exactly the documented total
order (`demandLE`: deadline presence first, earlier deadline, higher
priority weight, then task id, as a stable sort), and consequently for two
equal-duration tasks where `A` has the earlier deadline and both fit only
the same single available interval, `A` is placed and `B` is marked
unscheduled with reason `no-capacity` — never the reverse. -/
theorem scheduler_demand_order :
    (∀ l : List Task,
      List.Sorted demandLE (sortDemands l) ∧ (sortDemands l).Perm l) ∧
    (∀ (A B : Task) (f : Interval) (da db : Nat),
      A.deadline = some da → B.deadline = some db → da < db →
      A.duration = B.duration → 0 < A.duration →
      A.duration ≤ f.stop - f.start → f.stop - f.start < 2 * A.duration →
      ((runScheduler [f] [A, B]).placements.map Placement.taskId = [A.id] ∧
       (runScheduler [f] [A, B]).unscheduled = [⟨B.id, "no-capacity", none⟩] ∧
       (runScheduler [f] [B, A]).placements.map Placement.taskId = [A.id] ∧
       (runScheduler [f] [B, A]).unscheduled = [⟨B.id, "no-capacity", none⟩])) := by
  constructor
  · intro l
    exact ⟨List.sorted_insertionSort demandLE l, List.perm_insertionSort demandLE l⟩
  · intro A B f da db hA hB hlt hdur hpos hcap htight
    obtain ⟨hAB, hBA⟩ := demandLEb_of_deadline_lt hA hB hlt
    obtain ⟨hs1, hs2⟩ := sortDemands_pair hAB hBA
    have hrun : [A, B].foldl schedStep ⟨[f], [], []⟩ =
        ⟨if f.start + A.duration < f.stop then
            [(⟨f.start + A.duration, f.stop⟩ : Interval)] else [],
          [⟨A.id, f.start, f.start + A.duration,
            pastDeadlineFlag A (f.start + A.duration)⟩],
          [⟨B.id, "no-capacity", none⟩]⟩ :=
      sched_pair_tight hcap (by omega) (by omega)
    unfold runScheduler
    rw [hs1, hs2, hrun]
    simp

/-- C2 witness: task 1 is due at minute 720, task 2 at minute 1440; both
need 300 minutes and only one fits the 09:00–17:00 interval. -/
theorem scheduler_demand_order_witness :
    (runScheduler [⟨540, 1020⟩]
      [⟨1, "A", 300, some 720, 1, []⟩,
       ⟨2, "B", 300, some 1440, 1, []⟩]).placements.map Placement.taskId = [1] ∧
    (runScheduler [⟨540, 1020⟩]
      [⟨1, "A", 300, some 720, 1, []⟩,
       ⟨2, "B", 300, some 1440, 1, []⟩]).unscheduled =
        [⟨2, "no-capacity", none⟩] ∧
    (runScheduler [⟨540, 1020⟩]
      [⟨2, "B", 300, some 1440, 1, []⟩,
       ⟨1, "A", 300, some 720, 1, []⟩]).placements.map Placement.taskId = [1] ∧
    (runScheduler [⟨540, 1020⟩]
      [⟨2, "B", 300, some 1440, 1, []⟩,
       ⟨1, "A", 300, some 720, 1, []⟩]).unscheduled =
        [⟨2, "no-capacity", none⟩] :=
  scheduler_demand_order.2
    ⟨1, "A", 300, some 720, 1, []⟩ ⟨2, "B", 300, some 1440, 1, []⟩
    ⟨540, 1020⟩ 720 1440 rfl rfl (by decide) rfl (by decide) (by decide) (by decide)

theorem placeIn_none_iff (free : List Interval) (t : Task) :
    placeIn free t = none ↔ ∀ f ∈ free, f.stop - f.start < t.duration := by
  induction free with
  | nil => simp [placeIn]
  | cons f rest ih =>
    rw [placeIn]
    by_cases hfit : t.duration ≤ f.stop - f.start
    · rw [if_pos hfit]
      constructor
      · intro h
        exact absurd h (by simp)
      · intro h
        exact absurd (h f (List.mem_cons_self _ _)) (by omega)
    · rw [if_neg hfit]
      cases hrec : placeIn rest t with
      | none =>
        constructor
        · intro _ f' hf'
          rcases List.mem_cons.mp hf' with rfl | hf'
          · omega
          · exact (ih.mp hrec) f' hf'
        · intro _
          rfl
      | some pr =>
        obtain ⟨p, rest'⟩ := pr
        constructor
        · intro h
          exact absurd h (by simp)
        · intro h
          have hnone : placeIn rest t = none :=
            ih.mpr (fun f' hf' => h f' (List.mem_cons_of_mem f hf'))
          rw [hnone] at hrec
          exact absurd hrec (by simp)

/-- The deadline-independent shape of a placement decision: which task,
which interval, and the remaining free intervals. -/
def placeShape (x : Placement × List Interval) : (Nat × Nat × Nat) × List Interval :=
  ((x.1.taskId, x.1.start, x.1.stop), x.2)

theorem placeIn_deadline_independent (free : List Interval) (t : Task)
    (d₁ d₂ : Option Nat) :
    Option.map placeShape (placeIn free { t with deadline := d₁ }) =
      Option.map placeShape (placeIn free { t with deadline := d₂ }) := by
  induction free with
  | nil => rfl
  | cons f rest ih =>
    rw [placeIn, placeIn]
    by_cases hfit : t.duration ≤ f.stop - f.start
    · rw [if_pos hfit, if_pos hfit]
      simp [placeShape]
    · rw [if_neg hfit, if_neg hfit]
      cases h1 : placeIn rest { t with deadline := d₁ } with
      | none =>
        cases h2 : placeIn rest { t with deadline := d₂ } with
        | none => rfl
        | some pr2 =>
          rw [h1, h2] at ih
          exact absurd ih (by simp)
      | some pr1 =>
        cases h2 : placeIn rest { t with deadline := d₂ } with
        | none =>
          rw [h1, h2] at ih
          exact absurd ih (by simp)
        | some pr2 =>
          obtain ⟨p1, r1⟩ := pr1
          obtain ⟨p2, r2⟩ := pr2
          rw [h1, h2] at ih
          simp only [Option.map_some', Option.some.injEq, placeShape] at ih ⊢
          rw [Prod.mk.injEq] at ih ⊢
          refine ⟨ih.1, ?_⟩
          rw [ih.2]

theorem foldl_unscheduled_reasons (l : List Task) : ∀ s : SchedState,
    (∀ u ∈ s.unscheduled, u.reason = "no-capacity" ∧ u.message = none) →
    ∀ u ∈ (l.foldl schedStep s).unscheduled,
      u.reason = "no-capacity" ∧ u.message = none := by
  induction l with
  | nil => intro s h; exact h
  | cons t rest ih =>
    intro s h
    refine ih (schedStep s t) ?_
    unfold schedStep
    cases hp : placeIn s.free t with
    | some pr =>
      obtain ⟨p, fr⟩ := pr
      intro u hu
      exact h u hu
    | none =>
      intro u hu
      rcases List.mem_append.mp hu with hu | hu
      · exact h u hu
      · rw [List.mem_singleton] at hu
        subst hu
        exact ⟨rfl, rfl⟩

/-- C8: a deadlined task whose earliest fitting slot finishes past its
deadline (including one already overdue before the horizon) is still
placed in the earliest fitting slot and flagged, rather than refused: the
placement decision ignores the deadline except for the flag, the flag is
set exactly when the placement ends after the deadline, and a task is
marked unscheduled with reason `no-capacity` exactly when no free interval
has remaining capacity at least its duration. -/
theorem scheduler_best_effort :
    (∀ (free : List Interval) (t : Task),
      placeIn free t = none ↔ ∀ f ∈ free, f.stop - f.start < t.duration) ∧
    (∀ (free : List Interval) (t : Task) (p : Placement) (free' : List Interval),
      placeIn free t = some (p, free') →
      ∃ l f r, free = l ++ f :: r ∧
        (∀ x ∈ l, x.stop - x.start < t.duration) ∧
        t.duration ≤ f.stop - f.start ∧
        p.start = f.start ∧
        p.stop = f.start + t.duration ∧
        (∀ dl, t.deadline = some dl → (p.pastDeadline = true ↔ dl < p.stop)) ∧
        (t.deadline = none → p.pastDeadline = false)) ∧
    (∀ (free : List Interval) (t : Task) (d₁ d₂ : Option Nat),
      Option.map placeShape (placeIn free { t with deadline := d₁ }) =
        Option.map placeShape (placeIn free { t with deadline := d₂ })) ∧
    (∀ (free : List Interval) (demands : List Task),
      ∀ u ∈ (runScheduler free demands).unscheduled, u.reason = "no-capacity") := by
  refine ⟨placeIn_none_iff, ?_, placeIn_deadline_independent, ?_⟩
  · intro free t p free' h
    obtain ⟨l, f, r, hsplit, hsmall, hcap, hpl, _⟩ := placeIn_spec h
    refine ⟨l, f, r, hsplit, hsmall, hcap, by rw [hpl], by rw [hpl], ?_, ?_⟩
    · intro dl hdl
      rw [hpl]
      simp only [pastDeadlineFlag, hdl]
      simp
    · intro hdl
      rw [hpl]
      simp only [pastDeadlineFlag, hdl]
  · intro free demands u hu
    exact (foldl_unscheduled_reasons (sortDemands demands) ⟨free, [], []⟩
      (by intro u hu; exact absurd hu (List.not_mem_nil u)) u hu).1

/-- C8 witness: a task due at minute 100, before the 09:00 horizon start,
is still placed at 09:00–10:00 and carries the past-deadline flag. -/
theorem scheduler_best_effort_witness :
    ∃ l f r, ([(⟨540, 1020⟩ : Interval)] = l ++ f :: r) ∧
      (∀ x ∈ l, x.stop - x.start <
        (⟨1, "A", 60, some 100, 1, []⟩ : Task).duration) ∧
      (⟨1, "A", 60, some 100, 1, []⟩ : Task).duration ≤ f.stop - f.start ∧
      (⟨1, 540, 600, true⟩ : Placement).start = f.start ∧
      (⟨1, 540, 600, true⟩ : Placement).stop =
        f.start + (⟨1, "A", 60, some 100, 1, []⟩ : Task).duration ∧
      (∀ dl, (⟨1, "A", 60, some 100, 1, []⟩ : Task).deadline = some dl →
        ((⟨1, 540, 600, true⟩ : Placement).pastDeadline = true ↔
          dl < (⟨1, 540, 600, true⟩ : Placement).stop)) ∧
      ((⟨1, "A", 60, some 100, 1, []⟩ : Task).deadline = none →
        (⟨1, 540, 600, true⟩ : Placement).pastDeadline = false) :=
  scheduler_best_effort.2.1 [⟨540, 1020⟩] ⟨1, "A", 60, some 100, 1, []⟩
    ⟨1, 540, 600, true⟩ [⟨600, 1020⟩] rfl

/-- Modelled from the spec: a calendar event tagged with the originating
task id for idempotency lookups (§4.3, §6). -/
structure Event where
  taskId : Nat
  start : Nat
  stop : Nat
deriving Repr, DecidableEq

/-- Modelled from the spec: one calendar write.  The Reconciler detects an
existing event tagged with the same task id and replaces it rather than
duplicating it; otherwise it creates the event (§4.3 idempotency
requirement). -/
def upsert (events : List Event) (e : Event) : List Event :=
  if events.any (fun x => decide (x.taskId = e.taskId)) then
    events.map (fun x => if x.taskId = e.taskId then e else x)
  else events ++ [e]

/-- Start-time order on placements, for the write sequence (§4.3). -/
def placeStartLE (a b : Placement) : Prop :=
  a.start ≤ b.start

instance : DecidableRel placeStartLE :=
  fun a b => inferInstanceAs (Decidable (a.start ≤ b.start))

instance : IsTotal Placement placeStartLE :=
  ⟨fun a b => Nat.le_total a.start b.start⟩

instance : IsTrans Placement placeStartLE :=
  ⟨fun _ _ _ => Nat.le_trans⟩

/-- Modelled from the spec: write requests are issued in placement
start-time order (§4.3). -/
def sortPlacements (ps : List Placement) : List Placement :=
  List.insertionSort placeStartLE ps

/-- Modelled from the spec: the run report — placed task ids, unscheduled
entries with reasons, and the overall status (§3, §4.3). -/
structure RunReport where
  scheduled : List Nat
  unscheduled : List Unscheduled
  status : String
deriving Repr, DecidableEq

/-- The task ids whose calendar writes succeed, in write order.
`writeFail` models the calendar store's answer per task id: `none` is a
successful write, `some msg` a rejection with the underlying message. -/
def reconOkIds (writeFail : Nat → Option String) (ps : List Placement) : List Nat :=
  ((sortPlacements ps).filter (fun p => (writeFail p.taskId).isNone)).map
    Placement.taskId

/-- Modelled from the spec: tasks whose write failed are recorded as
`write-failed` with the underlying error message, and the remaining writes
are still attempted (§4.3). -/
def reconFailed (writeFail : Nat → Option String) (ps : List Placement) :
    List Unscheduled :=
  ((sortPlacements ps).filter (fun p => (writeFail p.taskId).isSome)).map
    (fun p => ⟨p.taskId, "write-failed", writeFail p.taskId⟩)

/-- Modelled from the spec: one calendar write attempt — a successful
write upserts the tagged event, a rejected one changes nothing (§4.3). -/
def writeStep (writeFail : Nat → Option String) (acc : List Event)
    (p : Placement) : List Event :=
  if (writeFail p.taskId).isNone then upsert acc ⟨p.taskId, p.start, p.stop⟩
  else acc

/-- Modelled from the spec: perform the writes in start-time order,
skipping rejected ones (§4.3). -/
def reconEvents (writeFail : Nat → Option String) (events : List Event)
    (ps : List Placement) : List Event :=
  (sortPlacements ps).foldl (writeStep writeFail) events

/-- Modelled from the spec: the overall status — `partial` if any write
succeeded while one failed, `failed` if every write failed, otherwise
`all-scheduled` or `partial` according to whether every task was placed
(§3, §4.3). -/
def reconStatus (writeFail : Nat → Option String) (ps : List Placement)
    (unsched : List Unscheduled) : String :=
  if (reconFailed writeFail ps).isEmpty then
    (if unsched.isEmpty then "all-scheduled" else "partial")
  else if (reconOkIds writeFail ps).isEmpty then "failed" else "partial"

/-- Modelled from the spec: the Result Reconciler (§4.3) — the engine code
is absent from the source tree. -/
def reconcile (writeFail : Nat → Option String) (events : List Event)
    (ps : List Placement) (unsched : List Unscheduled) :
    RunReport × List Event :=
  (⟨reconOkIds writeFail ps, unsched ++ reconFailed writeFail ps,
      reconStatus writeFail ps unsched⟩,
    reconEvents writeFail events ps)

/-- Modelled from the spec: the trigger endpoint's structured result
(§6). -/
structure Response where
  success : Bool
  scheduled : List Nat
  unscheduled : List Unscheduled
  error : Option String
deriving Repr, DecidableEq

/-- The observable outcome of one trigger invocation: the response, the
run report, and the calendar events after the run. -/
structure TriggerOutcome where
  response : Response
  report : RunReport
  events : List Event
deriving Repr, DecidableEq

/-- Modelled from the spec: one engine run over fetched inputs — build the
free intervals, schedule, reconcile (§2 control flow).  Engine-tagged
events are replaced on write per the idempotency contract, so the busy
intervals passed in are the externally-owned ones. -/
def runOnce (tasks : List Task) (busy windows : List Interval)
    (writeFail : Nat → Option String) (events : List Event) :
    RunReport × List Event :=
  reconcile writeFail events
    (runScheduler (buildFreeIntervals windows busy) tasks).placements
    (runScheduler (buildFreeIntervals windows busy) tasks).unscheduled

/-- Modelled from the spec: the trigger endpoint (§6, §7).  An adapter
read failure aborts the run before scheduling, surfaces the failure as the
top-level `error`, and leaves the calendar unchanged; otherwise the
pipeline runs to completion and `success` is true. -/
def trigger (fetchTasks : Except String (List Task))
    (fetchBusy : Except String (List Interval))
    (windows : List Interval) (writeFail : Nat → Option String)
    (events : List Event) : TriggerOutcome :=
  match fetchTasks, fetchBusy with
  | Except.error e, _ =>
    ⟨⟨false, [], [], some e⟩, ⟨[], [], "failed-before-scheduling"⟩, events⟩
  | Except.ok _, Except.error e =>
    ⟨⟨false, [], [], some e⟩, ⟨[], [], "failed-before-scheduling"⟩, events⟩
  | Except.ok tasks, Except.ok busy =>
    ⟨⟨true, (runOnce tasks busy windows writeFail events).1.scheduled,
        (runOnce tasks busy windows writeFail events).1.unscheduled, none⟩,
      (runOnce tasks busy windows writeFail events).1,
      (runOnce tasks busy windows writeFail events).2⟩

/-- Ambient state the engine must not read: wall clock and randomness
(§4.2 Determinism). -/
structure Env where
  wallClock : Nat
  randomSeed : Nat

/-- Modelled from the spec: a trigger invocation in an ambient environment;
per §4.2 the run depends only on the supplied inputs, never on the
environment. -/
def triggerWithEnv (_env : Env) (fetchTasks : Except String (List Task))
    (fetchBusy : Except String (List Interval))
    (windows : List Interval) (writeFail : Nat → Option String)
    (events : List Event) : TriggerOutcome :=
  trigger fetchTasks fetchBusy windows writeFail events

/-- JavaScript string interpolation of an absent field renders
`undefined` (header.jsx line 41 interpolates `result.error`). -/
def renderError : Option String → String
  | some s => s
  | none => "undefined"

/-- From header.jsx lines 38–42: the notification produced from a parsed
autoschedule response. -/
def settleMessage (result : Response) : String × String :=
  if result.success then ("success", "Tasks scheduled successfully!")
  else ("error", "Scheduling failed: " ++ renderError result.error)

/-- How a pending request settles: a parsed response, or a thrown error
(network failure / invalid JSON), per header.jsx lines 29–44. -/
inductive SettleOutcome where
  | ok (result : Response)
  | threw
deriving Repr, DecidableEq

/-- The externally observable events of the Header component: a click on
the Auto Schedule button, or the settling of the pending request. -/
inductive HeaderEvent where
  | click
  | settle (outcome : SettleOutcome)
deriving Repr, DecidableEq

/-- From header.jsx: the `isScheduling` and `scheduleMessage` signals
(lines 20–21) plus the number of autoschedule requests in flight. -/
structure HeaderState where
  isScheduling : Bool
  inFlight : Nat
  scheduleMessage : Option (String × String)
deriving Repr, DecidableEq

/-- From header.jsx lines 23–50: a click returns immediately while
`isScheduling()` is true (line 24); otherwise it sets `isScheduling`,
clears the message and issues the POST (lines 26–33).  When the request
settles, the continuation sets the message and the `finally` block always
resets `isScheduling` (lines 36–48).  A settle event with nothing in
flight changes nothing. -/
def headerStep (s : HeaderState) (e : HeaderEvent) : HeaderState :=
  match e with
  | HeaderEvent.click =>
    if s.isScheduling then s
    else ⟨true, s.inFlight + 1, none⟩
  | HeaderEvent.settle o =>
    if s.inFlight = 0 then s
    else
      ⟨false, s.inFlight - 1,
        some (match o with
          | SettleOutcome.ok r => settleMessage r
          | SettleOutcome.threw => ("error", "Network error occurred"))⟩

/-- The initial signal values of header.jsx lines 20–21. -/
def headerInit : HeaderState :=
  ⟨false, 0, none⟩

/-- The Header state after a sequence of events. -/
def headerRun (evs : List HeaderEvent) : HeaderState :=
  evs.foldl headerStep headerInit

/-- From header.jsx line 115: the Auto Schedule button's `disabled`
attribute. -/
def autoscheduleDisabled (selectionMode : Bool) (s : HeaderState) : Bool :=
  selectionMode || s.isScheduling

/-- The Header invariant: at most one request in flight, and the
`isScheduling` signal tracks whether one is. -/
def headerInv (s : HeaderState) : Prop :=
  s.inFlight ≤ 1 ∧ s.isScheduling = decide (s.inFlight = 1)

theorem headerStep_inv {s : HeaderState} (e : HeaderEvent)
    (h : headerInv s) : headerInv (headerStep s e) := by
  obtain ⟨h1, h2⟩ := h
  cases e with
  | click =>
    simp only [headerStep]
    by_cases hs : s.isScheduling
    · rw [if_pos hs]
      exact ⟨h1, h2⟩
    · rw [if_neg hs]
      have : s.inFlight = 0 := by
        rw [h2] at hs
        simp at hs
        omega
      refine ⟨?_, ?_⟩
      · show s.inFlight + 1 ≤ 1
        omega
      · show true = decide (s.inFlight + 1 = 1)
        rw [this]
        decide
  | settle o =>
    simp only [headerStep]
    by_cases hz : s.inFlight = 0
    · rw [if_pos hz]
      exact ⟨h1, h2⟩
    · rw [if_neg hz]
      refine ⟨by simp only; omega, by simp only; rw [decide_eq_false] <;> omega⟩

theorem headerRun_inv (evs : List HeaderEvent) : headerInv (headerRun evs) := by
  unfold headerRun
  have hgen : ∀ (l : List HeaderEvent) (s : HeaderState), headerInv s →
      headerInv (l.foldl headerStep s) := by
    intro l
    induction l with
    | nil => intro s h; exact h
    | cons e rest ih => intro s h; exact ih (headerStep s e) (headerStep_inv e h)
  exact hgen evs headerInit ⟨by decide, by decide⟩

/-- C10: for every sequence of Header events, at most one autoschedule
request is in flight, the button is disabled while one is pending, a click
while `isScheduling()` is true changes nothing (no request issued), and
every settle of a pending request resets `isScheduling` so the button is
re-enabled outside selection mode. -/
theorem header_single_flight :
    (∀ evs : List HeaderEvent,
      (headerRun evs).inFlight ≤ 1 ∧
      ((headerRun evs).inFlight = 1 → (headerRun evs).isScheduling = true) ∧
      (∀ sm : Bool, (headerRun evs).inFlight = 1 →
        autoscheduleDisabled sm (headerRun evs) = true)) ∧
    (∀ s : HeaderState, s.isScheduling = true →
      headerStep s HeaderEvent.click = s) ∧
    (∀ (s : HeaderState) (o : SettleOutcome), s.inFlight ≠ 0 →
      (headerStep s (HeaderEvent.settle o)).isScheduling = false ∧
      (headerStep s (HeaderEvent.settle o)).inFlight = s.inFlight - 1 ∧
      autoscheduleDisabled false (headerStep s (HeaderEvent.settle o)) = false) := by
  refine ⟨?_, ?_, ?_⟩
  · intro evs
    obtain ⟨h1, h2⟩ := headerRun_inv evs
    refine ⟨h1, ?_, ?_⟩
    · intro hf
      rw [h2, hf]
      simp
    · intro sm hf
      unfold autoscheduleDisabled
      rw [h2, hf]
      simp
  · intro s hs
    simp only [headerStep]
    rw [if_pos hs]
  · intro s o hz
    simp only [headerStep]
    rw [if_neg hz]
    exact ⟨rfl, rfl, rfl⟩

/-- C10 witness: a click issues one request and a thrown settle resets the
signal, leaving the button enabled. -/
theorem header_single_flight_witness :
    (headerStep ⟨true, 1, none⟩
      (HeaderEvent.settle SettleOutcome.threw)).isScheduling = false ∧
    (headerStep ⟨true, 1, none⟩
      (HeaderEvent.settle SettleOutcome.threw)).inFlight = 1 - 1 ∧
    autoscheduleDisabled false
      (headerStep ⟨true, 1, none⟩
        (HeaderEvent.settle SettleOutcome.threw)) = false :=
  header_single_flight.2.2 ⟨true, 1, none⟩ SettleOutcome.threw (by decide)

/-- C4: the trigger response's `success` is true exactly when both adapter
reads succeed and the pipeline runs to completion (regardless of
unscheduled tasks); `error` is absent exactly then; and whenever the
frontend receives `success = false` an error message is present, which
header.jsx renders as the failure notification. -/
theorem trigger_success_error_contract (ft : Except String (List Task))
    (fb : Except String (List Interval)) (windows : List Interval)
    (writeFail : Nat → Option String) (events : List Event) :
    ((trigger ft fb windows writeFail events).response.success = true ↔
      ft.isOk = true ∧ fb.isOk = true) ∧
    ((trigger ft fb windows writeFail events).response.error = none ↔
      ft.isOk = true ∧ fb.isOk = true) ∧
    ((trigger ft fb windows writeFail events).response.success = false →
      ∃ msg, (trigger ft fb windows writeFail events).response.error = some msg ∧
        settleMessage (trigger ft fb windows writeFail events).response =
          ("error", "Scheduling failed: " ++ msg)) := by
  cases ft with
  | error e =>
    refine ⟨by simp [trigger, Except.isOk, Except.toBool], by simp [trigger, Except.isOk, Except.toBool], ?_⟩
    intro _
    exact ⟨e, rfl, by simp [trigger, settleMessage, renderError]⟩
  | ok tasks =>
    cases fb with
    | error e =>
      refine ⟨by simp [trigger, Except.isOk, Except.toBool], by simp [trigger, Except.isOk, Except.toBool], ?_⟩
      intro _
      exact ⟨e, rfl, by simp [trigger, settleMessage, renderError]⟩
    | ok busy =>
      refine ⟨by simp [trigger, Except.isOk, Except.toBool], by simp [trigger, Except.isOk, Except.toBool], ?_⟩
      intro h
      exact absurd h (by simp [trigger])

/-- C4 witness: an unreachable task source yields `success = false` with
the error present and rendered by the frontend. -/
theorem trigger_success_error_contract_witness :
    ∃ msg, (trigger (Except.error "source-unavailable") (Except.ok [])
        [] (fun _ => none) []).response.error = some msg ∧
      settleMessage (trigger (Except.error "source-unavailable") (Except.ok [])
        [] (fun _ => none) []).response =
          ("error", "Scheduling failed: " ++ msg) :=
  (trigger_success_error_contract (Except.error "source-unavailable")
    (Except.ok []) [] (fun _ => none) []).2.2 rfl

/-- C5: if either adapter read fails, the run aborts before any scheduling:
the failure is the top-level `error`, nothing is scheduled, and the
calendar events are unchanged. -/
theorem trigger_adapter_failure_aborts (windows : List Interval)
    (writeFail : Nat → Option String) (events : List Event) :
    (∀ (e : String) (fb : Except String (List Interval)),
      trigger (Except.error e) fb windows writeFail events =
        ⟨⟨false, [], [], some e⟩, ⟨[], [], "failed-before-scheduling"⟩, events⟩) ∧
    (∀ (e : String) (tasks : List Task),
      trigger (Except.ok tasks) (Except.error e) windows writeFail events =
        ⟨⟨false, [], [], some e⟩, ⟨[], [], "failed-before-scheduling"⟩, events⟩) := by
  constructor
  · intro e fb
    cases fb <;> rfl
  · intro e tasks
    rfl

/-- C7: the engine is deterministic — the outcome never depends on ambient
wall-clock or randomness state, only on the supplied inputs, so identical
inputs give identical run reports. -/
theorem trigger_deterministic (env₁ env₂ : Env)
    (ft : Except String (List Task)) (fb : Except String (List Interval))
    (windows : List Interval) (writeFail : Nat → Option String)
    (events : List Event) :
    triggerWithEnv env₁ ft fb windows writeFail events =
      triggerWithEnv env₂ ft fb windows writeFail events :=
  rfl

theorem mem_sortPlacements {ps : List Placement} {p : Placement} (h : p ∈ ps) :
    p ∈ sortPlacements ps :=
  (List.perm_insertionSort placeStartLE ps).mem_iff.mpr h

theorem reconOkIds_mem {writeFail : Nat → Option String} {ps : List Placement}
    {p : Placement} (h : p ∈ ps) (hok : writeFail p.taskId = none) :
    p.taskId ∈ reconOkIds writeFail ps := by
  unfold reconOkIds
  exact List.mem_map_of_mem _
    (List.mem_filter.mpr ⟨mem_sortPlacements h, by simp [hok]⟩)

theorem reconFailed_mem {writeFail : Nat → Option String} {ps : List Placement}
    {p : Placement} {m : String} (h : p ∈ ps) (hm : writeFail p.taskId = some m) :
    (⟨p.taskId, "write-failed", some m⟩ : Unscheduled) ∈ reconFailed writeFail ps := by
  unfold reconFailed
  refine List.mem_map.mpr ⟨p, List.mem_filter.mpr ⟨mem_sortPlacements h, by simp [hm]⟩, ?_⟩
  rw [hm]

/-- C6: a failed calendar write is recorded per task as `write-failed`
with the underlying message while every remaining write is still
attempted; the overall status is `partial` when at least one write
succeeded and `failed` when none did, and the trigger response's `success`
stays true because the pipeline completed. -/
theorem reconciler_write_failure (tasks : List Task) (busy windows : List Interval)
    (writeFail : Nat → Option String) (events : List Event) :
    (∀ p ∈ (runScheduler (buildFreeIntervals windows busy) tasks).placements,
      (writeFail p.taskId = none →
        p.taskId ∈ (trigger (Except.ok tasks) (Except.ok busy) windows writeFail
          events).response.scheduled) ∧
      (∀ m, writeFail p.taskId = some m →
        (⟨p.taskId, "write-failed", some m⟩ : Unscheduled) ∈
          (trigger (Except.ok tasks) (Except.ok busy) windows writeFail
            events).response.unscheduled)) ∧
    ((∃ p ∈ (runScheduler (buildFreeIntervals windows busy) tasks).placements,
        writeFail p.taskId = none) →
      (∃ p ∈ (runScheduler (buildFreeIntervals windows busy) tasks).placements,
        (writeFail p.taskId).isSome = true) →
      (trigger (Except.ok tasks) (Except.ok busy) windows writeFail
        events).report.status = "partial") ∧
    (((runScheduler (buildFreeIntervals windows busy) tasks).placements ≠ []) →
      (∀ p ∈ (runScheduler (buildFreeIntervals windows busy) tasks).placements,
        (writeFail p.taskId).isSome = true) →
      (trigger (Except.ok tasks) (Except.ok busy) windows writeFail
        events).report.status = "failed") ∧
    (trigger (Except.ok tasks) (Except.ok busy) windows writeFail
      events).response.success = true := by
  refine ⟨?_, ?_, ?_, rfl⟩
  · intro p hp
    constructor
    · intro hok
      show p.taskId ∈ reconOkIds writeFail
        (runScheduler (buildFreeIntervals windows busy) tasks).placements
      exact reconOkIds_mem hp hok
    · intro m hm
      show _ ∈ (runScheduler (buildFreeIntervals windows busy) tasks).unscheduled ++
        reconFailed writeFail
          (runScheduler (buildFreeIntervals windows busy) tasks).placements
      exact List.mem_append_right _ (reconFailed_mem hp hm)
  · rintro ⟨p, hp, hok⟩ ⟨q, hq, hfail⟩
    show reconStatus writeFail
      (runScheduler (buildFreeIntervals windows busy) tasks).placements
      (runScheduler (buildFreeIntervals windows busy) tasks).unscheduled = "partial"
    obtain ⟨m, hm⟩ := Option.isSome_iff_exists.mp hfail
    have hfne : (reconFailed writeFail
        (runScheduler (buildFreeIntervals windows busy) tasks).placements).isEmpty
          ≠ true := fun hemp =>
      List.ne_nil_of_mem (reconFailed_mem hq hm) (List.isEmpty_iff.mp hemp)
    have hone : (reconOkIds writeFail
        (runScheduler (buildFreeIntervals windows busy) tasks).placements).isEmpty
          ≠ true := fun hemp =>
      List.ne_nil_of_mem (reconOkIds_mem hp hok) (List.isEmpty_iff.mp hemp)
    unfold reconStatus
    rw [if_neg hfne, if_neg hone]
  · intro hne hall
    show reconStatus writeFail
      (runScheduler (buildFreeIntervals windows busy) tasks).placements
      (runScheduler (buildFreeIntervals windows busy) tasks).unscheduled = "failed"
    obtain ⟨p, hp⟩ := List.exists_mem_of_ne_nil _ hne
    obtain ⟨m, hm⟩ := Option.isSome_iff_exists.mp (hall p hp)
    have hfne : (reconFailed writeFail
        (runScheduler (buildFreeIntervals windows busy) tasks).placements).isEmpty
          ≠ true := fun hemp =>
      List.ne_nil_of_mem (reconFailed_mem hp hm) (List.isEmpty_iff.mp hemp)
    have hoe : (reconOkIds writeFail
        (runScheduler (buildFreeIntervals windows busy) tasks).placements) = [] := by
      unfold reconOkIds
      rw [List.map_eq_nil]
      rw [List.filter_eq_nil]
      intro q hq
      have hq' : q ∈ (runScheduler (buildFreeIntervals windows busy) tasks).placements :=
        (List.perm_insertionSort placeStartLE _).mem_iff.mp hq
      obtain ⟨m', hm'⟩ := Option.isSome_iff_exists.mp (hall q hq')
      simp [hm']
    unfold reconStatus
    rw [if_neg hfne, hoe]
    rfl

/-- C6 witness: two placed tasks where only task 2's calendar write is
rejected — task 1 is scheduled, task 2 recorded as `write-failed` with the
message, status `partial`, `success` still true. -/
theorem reconciler_write_failure_witness :
    (trigger (Except.ok [⟨1, "A", 60, some 100, 1, []⟩, ⟨2, "B", 60, some 200, 1, []⟩])
      (Except.ok []) [⟨0, 1000⟩]
      (fun n => if n = 2 then some "calendar down" else none) []).report.status =
        "partial" :=
  (reconciler_write_failure
      [⟨1, "A", 60, some 100, 1, []⟩, ⟨2, "B", 60, some 200, 1, []⟩]
      [] [⟨0, 1000⟩] (fun n => if n = 2 then some "calendar down" else none) []).2.1
    ⟨⟨1, 0, 60, false⟩, by decide, by decide⟩
    ⟨⟨2, 60, 120, false⟩, by decide, by decide⟩

/-- The event `e` is present in the calendar exactly as written: it is in
the list and is the only event carrying its task id. -/
def installed (e : Event) (X : List Event) : Prop :=
  e ∈ X ∧ ∀ x ∈ X, x.taskId = e.taskId → x = e

theorem upsert_installed (X : List Event) (e : Event) :
    installed e (upsert X e) := by
  unfold upsert installed
  by_cases hany : X.any (fun x => decide (x.taskId = e.taskId)) = true
  · rw [if_pos hany]
    obtain ⟨x, hx, hxid⟩ := List.any_eq_true.mp hany
    have hxid' : x.taskId = e.taskId := of_decide_eq_true hxid
    constructor
    · exact List.mem_map.mpr ⟨x, hx, by rw [if_pos hxid']⟩
    · intro y hy hyid
      obtain ⟨x', hx', hfx'⟩ := List.mem_map.mp hy
      by_cases h' : x'.taskId = e.taskId
      · rw [← hfx', if_pos h']
      · rw [← hfx', if_neg h'] at hyid
        exact absurd hyid h'
  · rw [if_neg hany]
    constructor
    · exact List.mem_append_right _ (List.mem_singleton.mpr rfl)
    · intro y hy hyid
      rcases List.mem_append.mp hy with hy | hy
      · exact absurd (List.any_eq_true.mpr ⟨y, hy, decide_eq_true hyid⟩) hany
      · exact List.mem_singleton.mp hy

theorem upsert_keeps {X : List Event} {e : Event} (b : Event)
    (h : installed e X) (hne : b.taskId ≠ e.taskId) :
    installed e (upsert X b) := by
  obtain ⟨hmem, huniq⟩ := h
  unfold upsert
  by_cases hany : X.any (fun x => decide (x.taskId = b.taskId)) = true
  · rw [if_pos hany]
    constructor
    · refine List.mem_map.mpr ⟨e, hmem, ?_⟩
      rw [if_neg (fun heq => hne heq.symm)]
    · intro y hy hyid
      obtain ⟨x', hx', hfx'⟩ := List.mem_map.mp hy
      by_cases h' : x'.taskId = b.taskId
      · rw [← hfx', if_pos h'] at hyid
        exact absurd hyid hne
      · rw [← hfx', if_neg h'] at hyid ⊢
        exact huniq x' hx' hyid
  · rw [if_neg hany]
    constructor
    · exact List.mem_append_left _ hmem
    · intro y hy hyid
      rcases List.mem_append.mp hy with hy | hy
      · exact huniq y hy hyid
      · rw [List.mem_singleton] at hy
        subst hy
        exact absurd hyid hne

theorem upsert_noop {X : List Event} {e : Event} (h : installed e X) :
    upsert X e = X := by
  obtain ⟨hmem, huniq⟩ := h
  unfold upsert
  rw [if_pos (List.any_eq_true.mpr ⟨e, hmem, decide_eq_true rfl⟩)]
  have hcongr : ∀ x ∈ X, (if x.taskId = e.taskId then e else x) = id x := by
    intro x hx
    by_cases h' : x.taskId = e.taskId
    · rw [if_pos h', huniq x hx h']
      rfl
    · rw [if_neg h']
      rfl
  rw [List.map_congr_left hcongr, List.map_id]

theorem writeStep_keeps {writeFail : Nat → Option String} {X : List Event}
    {e : Event} (p : Placement) (h : installed e X) (hne : p.taskId ≠ e.taskId) :
    installed e (writeStep writeFail X p) := by
  unfold writeStep
  by_cases hc : (writeFail p.taskId).isNone = true
  · rw [if_pos hc]
    exact upsert_keeps _ h hne
  · rw [if_neg hc]
    exact h

theorem foldWrite_keeps (writeFail : Nat → Option String) (L : List Placement) :
    ∀ (X : List Event) (e : Event), installed e X →
      (∀ p ∈ L, p.taskId ≠ e.taskId) →
      installed e (L.foldl (writeStep writeFail) X) := by
  induction L with
  | nil => intro X e h _; exact h
  | cons q rest ih =>
    intro X e h hne
    rw [List.foldl_cons]
    exact ih _ e (writeStep_keeps q h (hne q (List.mem_cons_self _ _)))
      (fun p hp => hne p (List.mem_cons_of_mem q hp))

theorem foldWrite_installs (writeFail : Nat → Option String) :
    ∀ (L : List Placement), (L.map Placement.taskId).Nodup →
      ∀ (X : List Event), ∀ p ∈ L, writeFail p.taskId = none →
        installed ⟨p.taskId, p.start, p.stop⟩ (L.foldl (writeStep writeFail) X) := by
  intro L
  induction L with
  | nil => intro _ X p hp; exact absurd hp (List.not_mem_nil p)
  | cons q rest ih =>
    intro hnd X p hp hok
    rw [List.foldl_cons]
    rcases List.mem_cons.mp hp with rfl | hp
    · have hinst : installed ⟨p.taskId, p.start, p.stop⟩ (writeStep writeFail X p) := by
        unfold writeStep
        rw [if_pos (by rw [hok]; rfl)]
        exact upsert_installed X _
      refine foldWrite_keeps writeFail rest _ _ hinst ?_
      intro r hr heq
      rw [List.map_cons] at hnd
      have heq' : r.taskId = p.taskId := heq
      exact (List.nodup_cons.mp hnd).1
        (heq' ▸ List.mem_map_of_mem Placement.taskId hr)
    · refine ih ?_ (writeStep writeFail X q) p hp hok
      rw [List.map_cons] at hnd
      exact hnd.of_cons

theorem foldWrite_noop (writeFail : Nat → Option String) :
    ∀ (L : List Placement) (Y : List Event),
      (∀ p ∈ L, writeFail p.taskId = none →
        installed ⟨p.taskId, p.start, p.stop⟩ Y) →
      L.foldl (writeStep writeFail) Y = Y := by
  intro L
  induction L with
  | nil => intro Y _; rfl
  | cons q rest ih =>
    intro Y h
    rw [List.foldl_cons]
    have hq : writeStep writeFail Y q = Y := by
      unfold writeStep
      by_cases hc : (writeFail q.taskId).isNone = true
      · rw [if_pos hc]
        exact upsert_noop (h q (List.mem_cons_self _ _)
          (Option.isNone_iff_eq_none.mp hc))
      · rw [if_neg hc]
    rw [hq]
    exact ih Y (fun p hp => h p (List.mem_cons_of_mem q hp))

theorem placeIn_taskId {free : List Interval} {t : Task} {p : Placement}
    {free' : List Interval} (h : placeIn free t = some (p, free')) :
    p.taskId = t.id := by
  obtain ⟨l, f, r, _, _, _, hpl, _⟩ := placeIn_spec h
  rw [hpl]

theorem foldl_placements_ids (l : List Task) : ∀ s : SchedState,
    ∃ sub : List Nat,
      ((l.foldl schedStep s).placements).map Placement.taskId =
        s.placements.map Placement.taskId ++ sub ∧
      sub.Sublist (l.map Task.id) := by
  induction l with
  | nil => intro s; exact ⟨[], by simp, List.nil_sublist _⟩
  | cons t rest ih =>
    intro s
    obtain ⟨sub, hsub, hsl⟩ := ih (schedStep s t)
    cases hp : placeIn s.free t with
    | none =>
      have hplc : (schedStep s t).placements = s.placements := by
        unfold schedStep
        rw [hp]
      refine ⟨sub, ?_, ?_⟩
      · rw [List.foldl_cons, hsub, hplc]
      · rw [List.map_cons]
        exact hsl.cons t.id
    | some pr =>
      obtain ⟨p, fr⟩ := pr
      have hplc : (schedStep s t).placements = s.placements ++ [p] := by
        unfold schedStep
        rw [hp]
      refine ⟨p.taskId :: sub, ?_, ?_⟩
      · rw [List.foldl_cons, hsub, hplc]
        simp
      · rw [List.map_cons, placeIn_taskId hp]
        exact hsl.cons₂ t.id

theorem runScheduler_ids_nodup (free : List Interval) (tasks : List Task)
    (h : (tasks.map Task.id).Nodup) :
    (((runScheduler free tasks).placements).map Placement.taskId).Nodup := by
  obtain ⟨sub, hsub, hsl⟩ := foldl_placements_ids (sortDemands tasks) ⟨free, [], []⟩
  unfold runScheduler
  rw [hsub]
  have hperm : ((sortDemands tasks).map Task.id).Perm (tasks.map Task.id) :=
    (List.perm_insertionSort demandLE tasks).map Task.id
  have hnd : ((sortDemands tasks).map Task.id).Nodup := hperm.nodup_iff.mpr h
  simpa using hsl.nodup hnd

theorem sortPlacements_ids_nodup {ps : List Placement}
    (h : (ps.map Placement.taskId).Nodup) :
    ((sortPlacements ps).map Placement.taskId).Nodup :=
  (((List.perm_insertionSort placeStartLE ps).map Placement.taskId).nodup_iff).mpr h

theorem reconEvents_idempotent (writeFail : Nat → Option String)
    (events : List Event) (ps : List Placement)
    (hnd : (ps.map Placement.taskId).Nodup) :
    reconEvents writeFail (reconEvents writeFail events ps) ps =
      reconEvents writeFail events ps := by
  unfold reconEvents
  exact foldWrite_noop writeFail _ _
    (fun p hp hok => foldWrite_installs writeFail _
      (sortPlacements_ids_nodup hnd) events p hp hok)

theorem upsert_ids_nodup {X : List Event} (e : Event)
    (h : (X.map Event.taskId).Nodup) :
    ((upsert X e).map Event.taskId).Nodup := by
  unfold upsert
  by_cases hany : X.any (fun x => decide (x.taskId = e.taskId)) = true
  · rw [if_pos hany, List.map_map]
    have hcongr : ∀ x ∈ X,
        (Event.taskId ∘ fun x => if x.taskId = e.taskId then e else x) x =
          Event.taskId x := by
      intro x hx
      show (if x.taskId = e.taskId then e else x).taskId = x.taskId
      by_cases h' : x.taskId = e.taskId
      · rw [if_pos h', h']
      · rw [if_neg h']
    rw [List.map_congr_left hcongr]
    exact h
  · rw [if_neg hany, List.map_append]
    refine List.nodup_append.mpr ⟨h, List.nodup_singleton _, ?_⟩
    intro a ha hb
    rw [List.map_cons, List.map_nil, List.mem_singleton] at hb
    subst hb
    obtain ⟨x, hx, hxid⟩ := List.mem_map.mp ha
    exact hany (List.any_eq_true.mpr ⟨x, hx, decide_eq_true hxid⟩)

theorem reconEvents_ids_nodup (writeFail : Nat → Option String)
    (ps : List Placement) (events : List Event)
    (h : (events.map Event.taskId).Nodup) :
    ((reconEvents writeFail events ps).map Event.taskId).Nodup := by
  unfold reconEvents
  have hgen : ∀ (L : List Placement) (X : List Event),
      (X.map Event.taskId).Nodup →
      ((L.foldl (writeStep writeFail) X).map Event.taskId).Nodup := by
    intro L
    induction L with
    | nil => intro X hX; exact hX
    | cons q rest ih =>
      intro X hX
      rw [List.foldl_cons]
      refine ih _ ?_
      unfold writeStep
      by_cases hc : (writeFail q.taskId).isNone = true
      · rw [if_pos hc]
        exact upsert_ids_nodup _ hX
      · rw [if_neg hc]
        exact hX
  exact hgen _ events h

/-- C3: running the engine twice with no intervening task or calendar
change yields the same response and run report on the second run and
leaves the calendar events exactly as after the first run — every task
already carrying an event tagged with its id has that event replaced
in-place rather than duplicated, and tags stay unique. -/
theorem trigger_idempotent (tasks : List Task) (busy windows : List Interval)
    (writeFail : Nat → Option String) (events : List Event)
    (hids : (tasks.map Task.id).Nodup) :
    (trigger (Except.ok tasks) (Except.ok busy) windows writeFail
        (trigger (Except.ok tasks) (Except.ok busy) windows writeFail
          events).events).response =
      (trigger (Except.ok tasks) (Except.ok busy) windows writeFail
        events).response ∧
    (trigger (Except.ok tasks) (Except.ok busy) windows writeFail
        (trigger (Except.ok tasks) (Except.ok busy) windows writeFail
          events).events).report =
      (trigger (Except.ok tasks) (Except.ok busy) windows writeFail
        events).report ∧
    (trigger (Except.ok tasks) (Except.ok busy) windows writeFail
        (trigger (Except.ok tasks) (Except.ok busy) windows writeFail
          events).events).events =
      (trigger (Except.ok tasks) (Except.ok busy) windows writeFail
        events).events ∧
    ((events.map Event.taskId).Nodup →
      (((trigger (Except.ok tasks) (Except.ok busy) windows writeFail
        events).events).map Event.taskId).Nodup) := by
  refine ⟨rfl, rfl, ?_, ?_⟩
  · show reconEvents writeFail
      (reconEvents writeFail events
        (runScheduler (buildFreeIntervals windows busy) tasks).placements)
      (runScheduler (buildFreeIntervals windows busy) tasks).placements =
      reconEvents writeFail events
        (runScheduler (buildFreeIntervals windows busy) tasks).placements
    exact reconEvents_idempotent writeFail events _
      (runScheduler_ids_nodup _ tasks hids)
  · intro h
    show ((reconEvents writeFail events
      (runScheduler (buildFreeIntervals windows busy) tasks).placements).map
        Event.taskId).Nodup
    exact reconEvents_ids_nodup writeFail _ events h

/-- C3 witness: the second run over the unchanged state leaves the
calendar written by the first run untouched. -/
theorem trigger_idempotent_witness :
    (trigger (Except.ok [⟨1, "A", 60, some 100, 1, []⟩, ⟨2, "B", 60, some 200, 1, []⟩])
        (Except.ok []) [⟨0, 1000⟩] (fun _ => none)
        (trigger (Except.ok [⟨1, "A", 60, some 100, 1, []⟩, ⟨2, "B", 60, some 200, 1, []⟩])
          (Except.ok []) [⟨0, 1000⟩] (fun _ => none) []).events).events =
      (trigger (Except.ok [⟨1, "A", 60, some 100, 1, []⟩, ⟨2, "B", 60, some 200, 1, []⟩])
        (Except.ok []) [⟨0, 1000⟩] (fun _ => none) []).events :=
  (trigger_idempotent [⟨1, "A", 60, some 100, 1, []⟩, ⟨2, "B", 60, some 200, 1, []⟩]
    [] [⟨0, 1000⟩] (fun _ => none) [] (by decide)).2.2.1

end Autoschedule
